import Mathlib

/-!
# Detection post-processing of `peopleDetection.cpp`

A shallow embedding of `postprocess`, `drawPred` and `sendI2CMessage` from
`src/peopleDetection.cpp`, together with the frame loop of `main` restricted to the
calls of `postprocess`.

Modelling conventions.

* Tensor entries, scores and thresholds are rationals: every finite binary32 or binary64
  value is a rational, and comparisons, maxima and the widening `float → double` are exact
  on them.  NaN and infinities are outside the model.
* The binary32 product `data[k] * frame.cols` rounds; it is the parameter `fmul` of the
  environment, and every general theorem holds for every `fmul`.  `exactMul` is the
  instance used on inputs whose product is exactly representable.
* `int` is the 32-bit signed type.  Additions and subtractions of `int` wrap modulo
  `2 ^ 32` (`wrapInt`).  A conversion `(int)x` of a value outside the range of `int` is
  undefined behaviour in C++; `truncToInt` gives it the value `-2 ^ 31` that the x86-64
  conversion produces.  The theorems on box coordinates assume the converted values and
  their differences in the range of `int`, so they do not depend on either choice.
* An OpenCV assertion failure (`cv::Exception`) is the result `none`; nothing in the
  source catches it.
* `cv::Mat` is a continuous two-dimensional `CV_32F` matrix stored row-major, so that the
  pointer walk `data += cols` and `row(j)` address the same entries.
* The three parallel vectors `classIds`, `confidences`, `boxes` of `postprocess` are kept
  as one list of `Detection` records; the vectors are its three projections.
-/

namespace PeopleDetection

/-! ## Data model -/

/-- Integer rectangle `cv::Rect` with fields `x`, `y`, `width`, `height`. -/
structure Rect where
  x : Int
  y : Int
  width : Int
  height : Int
deriving DecidableEq

/-- Continuous two-dimensional `cv::Mat` of `CV_32F` entries, row-major: `data` holds
`rows * cols` entries.  A read past the end of `data`, which a well-formed matrix never
makes, yields `0`. -/
structure Mat where
  rows : Nat
  cols : Nat
  data : List ℚ
deriving DecidableEq

/-- Entry at row `j`, column `k`: both `((float*)m.data)[j * cols + k]` and
`m.row(j).col(k)`. -/
def Mat.at (m : Mat) (j k : Nat) : ℚ :=
  m.data.getD (j * m.cols + k) 0

/-- The size of the frame handed to `postprocess` (`frame.cols`, `frame.rows`). -/
structure Frame where
  cols : Int
  rows : Int
deriving DecidableEq

/-- One entry of the parallel vectors `classIds`, `confidences`, `boxes`. -/
structure Detection where
  classId : Int
  confidence : ℚ
  box : Rect
deriving DecidableEq

/-! ## Decode loop of `postprocess` (source lines 152 to 179) -/

/-- Truncation toward zero of a rational. -/
def truncQ (q : ℚ) : Int :=
  Int.tdiv q.num q.den

/-- The values of the 32-bit type `int`: `-2 ^ 31 .. 2 ^ 31 - 1`. -/
def InIntRange (z : Int) : Prop :=
  -2 ^ 31 ≤ z ∧ z ≤ 2 ^ 31 - 1

instance (z : Int) : Decidable (InIntRange z) :=
  inferInstanceAs (Decidable (-2 ^ 31 ≤ z ∧ z ≤ 2 ^ 31 - 1))

/-- Conversion `(int)x` of a floating value: truncation toward zero when the truncated
value is an `int`.  Otherwise the conversion is undefined in C++; the value here is
`INT_MIN`, the result of the x86-64 conversion instruction. -/
def truncToInt (q : ℚ) : Int :=
  if InIntRange (truncQ q) then truncQ q else -2 ^ 31

/-- The `int` result of an addition or subtraction whose mathematical result is `z`:
reduction to the 32-bit two's complement range. -/
def wrapInt (z : Int) : Int :=
  (z + 2 ^ 31) % 2 ^ 32 - 2 ^ 31

/-- The exact product, the value of `data[k] * frame.cols` whenever that product is
representable in binary32. -/
def exactMul (x : ℚ) (n : Int) : ℚ :=
  x * n

/-- Scan of `cv::minMaxLoc` for the maximum: a later entry replaces the running maximum
only when strictly greater, so the first maximal position is reported. -/
def maxScan : List ℚ → Nat → ℚ → Nat → ℚ × Nat
  | [], _, best, bestIdx => (best, bestIdx)
  | s :: rest, i, best, bestIdx =>
      if best < s then maxScan rest (i + 1) s i else maxScan rest (i + 1) best bestIdx

/-- The call `minMaxLoc(scores, 0, &confidence, 0, &classIdPoint)` on a single-row matrix:
the maximum value and the `x` coordinate of its location.  On an empty matrix OpenCV
reports the value `0` and the location `-1`. -/
def minMaxLoc (scores : List ℚ) : ℚ × Int :=
  match scores with
  | [] => (0, -1)
  | s :: rest => ((maxScan rest 1 s 0).1, ((maxScan rest 1 s 0).2 : Int))

/-- The matrix `outs[i].row(j).colRange(5, outs[i].cols)`: columns `5 .. cols - 1` of
row `j`. -/
def rowScores (m : Mat) (j : Nat) : List ℚ :=
  (List.range (m.cols - 5)).map (fun k => m.at j (5 + k))

/-- Body of the inner loop for row `j` (source lines 160 to 177): the pushed entry, or
`none` when the row is skipped. -/
def decodeRow (fmul : ℚ → Int → ℚ) (frame : Frame) (confThreshold : ℚ) (m : Mat)
    (j : Nat) : Option Detection :=
  let scores := rowScores m j
  let confidence := (minMaxLoc scores).1
  let classIdPoint := (minMaxLoc scores).2
  if confidence > confThreshold then
    let centerX := truncToInt (fmul (m.at j 0) frame.cols)
    let centerY := truncToInt (fmul (m.at j 1) frame.rows)
    let width := truncToInt (fmul (m.at j 2) frame.cols)
    let height := truncToInt (fmul (m.at j 3) frame.rows)
    let left := wrapInt (centerX - Int.tdiv width 2)
    let top := wrapInt (centerY - Int.tdiv height 2)
    some ⟨classIdPoint, confidence, ⟨left, top, width, height⟩⟩
  else
    none

/-- Inner loop `for (j = 0; j < outs[i].rows; ++j)`: the first argument counts the rows
still to visit, the second is `j`.  `colRange(5, cols)` asserts `5 ≤ cols`. -/
def rowLoop (fmul : ℚ → Int → ℚ) (frame : Frame) (confThreshold : ℚ) (m : Mat) :
    Nat → Nat → List Detection → Option (List Detection)
  | 0, _, acc => some acc
  | n + 1, j, acc =>
      if m.cols < 5 then none
      else
        match decodeRow fmul frame confThreshold m j with
        | some d => rowLoop fmul frame confThreshold m n (j + 1) (acc ++ [d])
        | none => rowLoop fmul frame confThreshold m n (j + 1) acc

/-- Outer loop `for (i = 0; i < outs.size(); ++i)`. -/
def decodeLoop (fmul : ℚ → Int → ℚ) (frame : Frame) (confThreshold : ℚ) :
    List Mat → List Detection → Option (List Detection)
  | [], acc => some acc
  | m :: rest, acc =>
      match rowLoop fmul frame confThreshold m m.rows 0 acc with
      | none => none
      | some acc1 => decodeLoop fmul frame confThreshold rest acc1

/-- The candidates collected by the decode loop of `postprocess`, starting from empty
vectors. -/
def decode (fmul : ℚ → Int → ℚ) (frame : Frame) (confThreshold : ℚ) (outs : List Mat) :
    Option (List Detection) :=
  decodeLoop fmul frame confThreshold outs []

/-- The entries pushed for one tensor when its rows are visited in order. -/
def retainedRows (fmul : ℚ → Int → ℚ) (frame : Frame) (confThreshold : ℚ) (m : Mat) :
    List Detection :=
  (List.range m.rows).filterMap (decodeRow fmul frame confThreshold m)

/-- A value `mx` is the maximum of the list `l`. -/
def IsMaxOf (mx : ℚ) (l : List ℚ) : Prop :=
  mx ∈ l ∧ ∀ s ∈ l, s ≤ mx

instance (mx : ℚ) (l : List ℚ) : Decidable (IsMaxOf mx l) :=
  inferInstanceAs (Decidable (mx ∈ l ∧ ∀ s ∈ l, s ≤ mx))

/-- Following the wording of the row layout `[centerX, centerY, w, h, score_0 ..]` of the
inference contract: the columns after the four box values, columns `4 .. cols - 1`. -/
def specScoreSegment (m : Mat) (j : Nat) : List ℚ :=
  (List.range (m.cols - 4)).map (fun k => m.at j (4 + k))

/-! ## Non-maximum suppression

`cv::dnn::NMSBoxes` belongs to OpenCV and is not part of the sources; it is modelled from
the description of the suppression step. -/

/-- Area `width * height` of a box. -/
def Rect.area (r : Rect) : Int :=
  r.width * r.height

/-- Modelled from the spec: the intersection area of two boxes (the numerator of the
overlap ratio used by `NMSBoxes`, which is not in the sources); empty when the boxes do
not meet. -/
def interArea (a b : Rect) : Int :=
  max 0 (min (a.x + a.width) (b.x + b.width) - max a.x b.x) *
    max 0 (min (a.y + a.height) (b.y + b.height) - max a.y b.y)

/-- Modelled from the spec: the Jaccard index used by `NMSBoxes` (not in the sources),
intersection area divided by union area.  A zero union gives `0`. -/
def jaccard (a b : Rect) : ℚ :=
  (interArea a b : ℚ) / ((a.area + b.area - interArea a b : Int) : ℚ)

/-- Modelled from the spec: the greedy pass of `NMSBoxes` (not in the sources) over the
candidates in selection order.  The head is selected as a survivor and every remaining
candidate whose overlap with it exceeds `thr` is removed.  The first argument bounds the
number of selections; the length of the list always suffices. -/
def greedyFuel {α : Type} (ov : α → α → ℚ) (thr : ℚ) : Nat → List α → List α
  | 0, _ => []
  | _ + 1, [] => []
  | n + 1, a :: rest =>
      a :: greedyFuel ov thr n (rest.filter (fun b => decide (ov a b ≤ thr)))

/-- Modelled from the spec: the greedy pass run to completion. -/
def greedy {α : Type} (ov : α → α → ℚ) (thr : ℚ) (l : List α) : List α :=
  greedyFuel ov thr l.length l

/-- Modelled from the spec: `cv::dnn::NMSBoxes(bboxes, scores, score_threshold,
nms_threshold, indices)` of OpenCV, which is not in the sources.  Candidates whose score
does not exceed `scoreThreshold` are dropped, the rest are sorted by descending score with
a stable sort, and the greedy pass selects the survivors; the result is the vector
`indices` of positions into `bboxes`, in order of selection.  The source calls it with its
globals `confThreshold = 0.5` and `nmsThreshold = 0.4`. -/
def NMSBoxes (bboxes : List Rect) (scores : List ℚ) (scoreThreshold nmsThreshold : ℚ) :
    List Nat :=
  let kept := (List.range scores.length).filter
    (fun i => decide (scoreThreshold < scores.getD i 0))
  let sorted := kept.insertionSort (fun i k => scores.getD k 0 ≤ scores.getD i 0)
  greedy (fun i k => jaccard (bboxes.getD i ⟨0, 0, 0, 0⟩) (bboxes.getD k ⟨0, 0, 0, 0⟩))
    nmsThreshold sorted

/-- The entries `classIds[idx]`, `confidences[idx]`, `boxes[idx]` for the indices returned
by `NMSBoxes`, in the order in which `postprocess` visits them. -/
def survivors (cands : List Detection) (confThreshold nmsThreshold : ℚ) : List Detection :=
  (NMSBoxes (cands.map (fun d => d.box)) (cands.map (fun d => d.confidence))
    confThreshold nmsThreshold).map (fun idx => cands.getD idx ⟨0, 0, ⟨0, 0, 0, 0⟩⟩)

/-! ## Side effects: `sendI2CMessage`, `drawPred`, `postprocess`, frame loop -/

/-- The observable effects of the program. -/
structure World where
  /-- Payloads handed to `write(i2cFile, ..)`, one entry per call, in call order. -/
  busWrites : List String
  /-- Lines written to `cerr`. -/
  cerr : List String
  /-- Lines written to `cout`. -/
  cout : List String
  /-- Corner coordinates `(left, top, right, bottom)` of the boxes drawn on frames. -/
  rectangles : List (Int × Int × Int × Int)
deriving DecidableEq

/-- The globals and the collaborators of `postprocess`. -/
structure Env where
  /-- Whether the program was compiled with `__linux__` defined. -/
  isLinux : Bool
  /-- Value returned by the `n`-th call of `write` (counted from `0`) for a payload. -/
  writeResult : Nat → String → Int
  /-- The binary32 product `data[k] * frame.cols` (or `frame.rows`). -/
  fmul : ℚ → Int → ℚ
  /-- Global `confThreshold`. -/
  confThreshold : ℚ
  /-- Global `nmsThreshold`. -/
  nmsThreshold : ℚ

/-- The function `sendI2CMessage` (source lines 46 to 54).  The comparison of the `ssize_t`
result with `message.length()` is unsigned, hence the reduction modulo `2 ^ 64`. -/
def sendI2CMessage (env : Env) (message : String) (w : World) : World :=
  if env.isLinux then
    let written := env.writeResult w.busWrites.length message
    let w1 : World := ⟨w.busWrites ++ [message], w.cerr, w.cout, w.rectangles⟩
    if written % 2 ^ 64 ≠ (message.utf8ByteSize : Int) then
      ⟨w1.busWrites, w1.cerr ++ ["Failed to write to the I2C bus"], w1.cout, w1.rectangles⟩
    else
      w1
  else
    ⟨w.busWrites, w.cerr, w.cout ++ ["[I2C Simulation] Sending message: " ++ message],
      w.rectangles⟩

/-- The function `drawPred` (source lines 195 to 222).  The label text and its background
are rendering only and are not recorded; `CV_Assert(classId < classes.size())` is reached
only with `classId = 0` and a non-empty `classes`, so it cannot fail. -/
def drawPred (env : Env) (classId : Int) (_conf : ℚ) (left top right bottom : Int)
    (w : World) : World :=
  if classId = 0 then
    sendI2CMessage env "PERSON_DETECTED"
      ⟨w.busWrites, w.cerr, w.cout, w.rectangles ++ [(left, top, right, bottom)]⟩
  else
    w

/-- The function `postprocess` (source lines 146 to 192). -/
def postprocess (env : Env) (frame : Frame) (outs : List Mat) (w : World) : Option World :=
  match decode env.fmul frame env.confThreshold outs with
  | none => none
  | some cands =>
      let classIds := cands.map (fun d => d.classId)
      let confidences := cands.map (fun d => d.confidence)
      let boxes := cands.map (fun d => d.box)
      let indices := NMSBoxes boxes confidences env.confThreshold env.nmsThreshold
      some (indices.foldl
        (fun acc idx =>
          let box := boxes.getD idx ⟨0, 0, 0, 0⟩
          drawPred env (classIds.getD idx 0) (confidences.getD idx 0) box.x box.y
            (wrapInt (box.x + box.width)) (wrapInt (box.y + box.height)) acc)
        w)

/-- The frame loop of `main` (source lines 105 to 138) restricted to its calls of
`postprocess`: each element is a captured frame with the tensors returned for it by the
forward pass. -/
def processFrames (env : Env) : List (Frame × List Mat) → World → Option World
  | [], w => some w
  | f :: rest, w =>
      match postprocess env f.1 f.2 w with
      | none => none
      | some w1 => processFrames env rest w1

/-- The survivors of one frame: the candidates of its decode loop after `NMSBoxes`. -/
def frameSurvivors (env : Env) (f : Frame × List Mat) : List Detection :=
  match decode env.fmul f.1 env.confThreshold f.2 with
  | none => []
  | some cands => survivors cands env.confThreshold env.nmsThreshold

/-- Number of person-class survivors (`classId = 0`) of one frame. -/
def personCount (env : Env) (f : Frame × List Mat) : Nat :=
  (frameSurvivors env f).countP (fun d => decide (d.classId = 0))

/-- Following the spec's words for the edge-triggered dispatcher: the number of frames
that contain a person and follow a frame without one (or are the first frame, the flag
starting inactive).  The first argument is the flag before the first listed frame. -/
def risingEdges : Bool → List Bool → Nat
  | _, [] => 0
  | active, cur :: rest => (if cur && !active then 1 else 0) + risingEdges cur rest

/-- Body of the final loop of `postprocess` for one survivor: the call
`drawPred(classIds[idx], confidences[idx], box.x, box.y, box.x + box.width,
box.y + box.height, frame)`, the two sums taken in `int`. -/
def drawStep (env : Env) (w : World) (d : Detection) : World :=
  drawPred env d.classId d.confidence d.box.x d.box.y (wrapInt (d.box.x + d.box.width))
    (wrapInt (d.box.y + d.box.height)) w

/-- The effects other than the lines on `cerr`. -/
def World.withoutCerr (w : World) : World :=
  ⟨w.busWrites, [], w.cout, w.rectangles⟩

/-- Two environments that differ at most in the results of `write`. -/
def Env.sameButWrites (env other : Env) : Prop :=
  other.isLinux = env.isLinux ∧ other.fmul = env.fmul ∧
    other.confThreshold = env.confThreshold ∧ other.nmsThreshold = env.nmsThreshold

/-! ## Sample inputs -/

/-- The thresholds of the source (`confThreshold = 0.5`, `nmsThreshold = 0.4`) on Linux,
with a bus on which every `write` fails with `-1`. -/
def failingEnv : Env :=
  ⟨true, fun _ _ => -1, exactMul, 1 / 2, 2 / 5⟩

/-- The thresholds of the source on Linux, with a bus on which every `write` transfers the
whole payload. -/
def workingEnv : Env :=
  ⟨true, fun _ msg => (msg.utf8ByteSize : Int), exactMul, 1 / 2, 2 / 5⟩

/-- The thresholds of the source in the build without `__linux__`, where `write` is the
stub returning `0`. -/
def simulationEnv : Env :=
  ⟨false, fun _ _ => 0, exactMul, 1 / 2, 2 / 5⟩

/-- The world before the first frame. -/
def emptyWorld : World :=
  ⟨[], [], [], []⟩

/-- A frame of 640 by 480 pixels. -/
def vga : Frame :=
  ⟨640, 480⟩

/-- One tensor with one row of six columns: a centred box of a quarter of the frame in
each direction, column 4 zero, one score column with `0.75`. -/
def personTensor : Mat :=
  ⟨1, 6, [1 / 2, 1 / 2, 1 / 4, 1 / 4, 0, 3 / 4]⟩

/-- One tensor with the same row, its score `0.25` below the threshold. -/
def backgroundTensor : Mat :=
  ⟨1, 6, [1 / 2, 1 / 2, 1 / 4, 1 / 4, 0, 1 / 4]⟩

/-- The frame sequence person, person, person, none, person. -/
def fiveFrames : List (Frame × List Mat) :=
  [(vga, [personTensor]), (vga, [personTensor]), (vga, [personTensor]),
    (vga, [backgroundTensor]), (vga, [personTensor])]

/-- The candidate list of the suppression scenario. -/
def scenarioCandidates : List Detection :=
  [⟨0, 9 / 10, ⟨0, 0, 10, 10⟩⟩, ⟨0, 8 / 10, ⟨1, 1, 10, 10⟩⟩, ⟨3, 95 / 100, ⟨50, 50, 5, 5⟩⟩]

/-- The world after `fiveFrames` on a working bus: four writes and four drawn boxes. -/
def fiveFramesWorld : World :=
  ⟨["PERSON_DETECTED", "PERSON_DETECTED", "PERSON_DETECTED", "PERSON_DETECTED"], [], [],
    [(240, 180, 400, 300), (240, 180, 400, 300), (240, 180, 400, 300), (240, 180, 400, 300)]⟩

/-! ## Lemmas on the decode loop -/

theorem truncQ_eq (q : ℚ) : truncQ q = if 0 ≤ q then ⌊q⌋ else ⌈q⌉ := by
  unfold truncQ
  split_ifs with h
  · rw [Int.tdiv_eq_ediv (Rat.num_nonneg.mpr h) (Int.ofNat_nonneg _), Rat.floor_def]
  · have hneg : 0 ≤ (-q).num := Rat.num_nonneg.mpr (by linarith)
    have h1 : ⌈q⌉ = -⌊-q⌋ := by rw [Int.floor_neg, neg_neg]
    rw [h1, Rat.floor_def, Rat.neg_den, ← Int.tdiv_eq_ediv hneg (Int.ofNat_nonneg _),
      Rat.neg_num, Int.neg_tdiv, neg_neg]

theorem truncQ_pos_iff (q : ℚ) : 0 < truncQ q ↔ 1 ≤ q := by
  rw [truncQ_eq]
  split_ifs with h
  · rw [Int.floor_pos]
  · constructor
    · intro hc
      have : (0 : ℚ) < q := Int.ceil_pos.mp hc
      linarith
    · intro h1
      linarith

/-- Within the range of `int` the conversion is the truncation. -/
theorem truncToInt_of_inRange (q : ℚ) (h : InIntRange (truncQ q)) :
    truncToInt q = truncQ q := by
  unfold truncToInt
  rw [if_pos h]

/-- Within the range of `int` an addition or subtraction does not wrap. -/
theorem wrapInt_of_inRange (z : Int) (h : InIntRange z) : wrapInt z = z := by
  unfold InIntRange at h
  unfold wrapInt
  omega

theorem wrapInt_inRange (z : Int) : InIntRange (wrapInt z) := by
  unfold InIntRange wrapInt
  omega

theorem truncToInt_inRange (q : ℚ) : InIntRange (truncToInt q) := by
  unfold truncToInt
  split_ifs with h
  · exact h
  · unfold InIntRange
    omega

/-- For a non-negative centre and a non-negative size, both values of `int`, the corner
`centre - size / 2` is a value of `int`. -/
theorem inIntRange_sub_half (c s : Int) (hc : InIntRange c) (hs : InIntRange s)
    (hc0 : 0 ≤ c) (hs0 : 0 ≤ s) : InIntRange (c - Int.tdiv s 2) := by
  unfold InIntRange at *
  have h1 : Int.tdiv s 2 = s / 2 := Int.tdiv_eq_ediv hs0 (by decide)
  rw [h1]
  omega

theorem maxScan_ge (rest : List ℚ) :
    ∀ (i : Nat) (best : ℚ) (bi : Nat),
      best ≤ (maxScan rest i best bi).1 ∧ ∀ s ∈ rest, s ≤ (maxScan rest i best bi).1 := by
  induction rest with
  | nil => intro i best bi; simp [maxScan]
  | cons a rest ih =>
    intro i best bi
    unfold maxScan
    split_ifs with h
    · obtain ⟨h1, h2⟩ := ih (i + 1) a i
      refine ⟨le_trans (le_of_lt h) h1, ?_⟩
      intro s hs
      rcases List.mem_cons.mp hs with rfl | hs
      · exact h1
      · exact h2 s hs
    · obtain ⟨h1, h2⟩ := ih (i + 1) best bi
      refine ⟨h1, ?_⟩
      intro s hs
      rcases List.mem_cons.mp hs with rfl | hs
      · exact le_trans (not_lt.mp h) h1
      · exact h2 s hs

theorem maxScan_idx (rest : List ℚ) :
    ∀ (i : Nat) (best : ℚ) (bi : Nat),
      ((maxScan rest i best bi).1 = best ∧ (maxScan rest i best bi).2 = bi) ∨
      (i ≤ (maxScan rest i best bi).2 ∧
        rest[(maxScan rest i best bi).2 - i]? = some (maxScan rest i best bi).1) := by
  induction rest with
  | nil => intro i best bi; simp [maxScan]
  | cons a rest ih =>
    intro i best bi
    unfold maxScan
    split_ifs with h
    · right
      rcases ih (i + 1) a i with ⟨h1, h2⟩ | ⟨h1, h2⟩
      · rw [h1, h2]; simp
      · refine ⟨by omega, ?_⟩
        have : (maxScan rest (i + 1) a i).2 - i = ((maxScan rest (i + 1) a i).2 - (i + 1)) + 1 := by
          omega
        rw [this, List.getElem?_cons_succ]
        exact h2
    · rcases ih (i + 1) best bi with ⟨h1, h2⟩ | ⟨h1, h2⟩
      · left; exact ⟨h1, h2⟩
      · right
        refine ⟨by omega, ?_⟩
        have : (maxScan rest (i + 1) best bi).2 - i
            = ((maxScan rest (i + 1) best bi).2 - (i + 1)) + 1 := by
          omega
        rw [this, List.getElem?_cons_succ]
        exact h2

/-- On a non-empty score row `minMaxLoc` reports a position of the row, the value stored
there, and that value bounds every entry. -/
theorem minMaxLoc_spec (scores : List ℚ) (hne : scores ≠ []) :
    0 ≤ (minMaxLoc scores).2 ∧
      scores[(minMaxLoc scores).2.toNat]? = some (minMaxLoc scores).1 ∧
      ∀ s ∈ scores, s ≤ (minMaxLoc scores).1 := by
  cases scores with
  | nil => exact absurd rfl hne
  | cons a rest =>
    simp only [minMaxLoc]
    refine ⟨Int.ofNat_nonneg _, ?_, ?_⟩
    · rw [Int.toNat_ofNat]
      rcases maxScan_idx rest 1 a 0 with ⟨h1, h2⟩ | ⟨h1, h2⟩
      · rw [h1, h2]; simp
      · have : (maxScan rest 1 a 0).2 = ((maxScan rest 1 a 0).2 - 1) + 1 := by omega
        rw [this, List.getElem?_cons_succ]
        exact h2
    · intro s hs
      obtain ⟨h1, h2⟩ := maxScan_ge rest 1 a 0
      rcases List.mem_cons.mp hs with rfl | hs
      · exact h1
      · exact h2 s hs

theorem minMaxLoc_isMaxOf (scores : List ℚ) (hne : scores ≠ []) :
    IsMaxOf (minMaxLoc scores).1 scores := by
  obtain ⟨_, h2, h3⟩ := minMaxLoc_spec scores hne
  exact ⟨List.getElem?_mem h2, h3⟩

theorem isMaxOf_unique {a b : ℚ} {l : List ℚ} (ha : IsMaxOf a l) (hb : IsMaxOf b l) :
    a = b :=
  le_antisymm (hb.2 a ha.1) (ha.2 b hb.1)

theorem rowScores_ne_nil (m : Mat) (j : Nat) (h : 5 < m.cols) : rowScores m j ≠ [] := by
  intro hnil
  have hlen : (rowScores m j).length = m.cols - 5 := by simp [rowScores]
  rw [hnil] at hlen
  simp at hlen
  omega

theorem rowScores_eq_nil (m : Mat) (j : Nat) (h : m.cols ≤ 5) : rowScores m j = [] := by
  have h0 : m.cols - 5 = 0 := by omega
  simp [rowScores, h0]

theorem rowScores_getElem? (m : Mat) (j k : Nat) (h : k < m.cols - 5) :
    (rowScores m j)[k]? = some (m.at j (5 + k)) := by
  simp [rowScores, List.getElem?_range h]

theorem decodeRow_eq_some_iff (fmul : ℚ → Int → ℚ) (frame : Frame) (t : ℚ) (m : Mat)
    (j : Nat) (d : Detection) :
    decodeRow fmul frame t m j = some d ↔
      t < (minMaxLoc (rowScores m j)).1 ∧
      d = ⟨(minMaxLoc (rowScores m j)).2, (minMaxLoc (rowScores m j)).1,
        ⟨wrapInt (truncToInt (fmul (m.at j 0) frame.cols)
            - Int.tdiv (truncToInt (fmul (m.at j 2) frame.cols)) 2),
          wrapInt (truncToInt (fmul (m.at j 1) frame.rows)
            - Int.tdiv (truncToInt (fmul (m.at j 3) frame.rows)) 2),
          truncToInt (fmul (m.at j 2) frame.cols),
          truncToInt (fmul (m.at j 3) frame.rows)⟩⟩ := by
  unfold decodeRow
  simp only [gt_iff_lt]
  split_ifs with h
  · simp only [Option.some.injEq, h, true_and]
    exact eq_comm
  · simp [h]

theorem decodeRow_isSome_iff (fmul : ℚ → Int → ℚ) (frame : Frame) (t : ℚ) (m : Mat)
    (j : Nat) :
    (decodeRow fmul frame t m j).isSome = true ↔ t < (minMaxLoc (rowScores m j)).1 := by
  rw [Option.isSome_iff_exists]
  constructor
  · rintro ⟨d, hd⟩
    exact ((decodeRow_eq_some_iff fmul frame t m j d).mp hd).1
  · intro h
    exact ⟨_, (decodeRow_eq_some_iff fmul frame t m j _).mpr ⟨h, rfl⟩⟩

/-- With at least one score column, or with a non-negative threshold, a row is pushed
exactly when the maximum of its score columns exceeds the threshold. -/
theorem decodeRow_isSome_iff_max (fmul : ℚ → Int → ℚ) (frame : Frame) (t : ℚ) (m : Mat)
    (j : Nat) (h : 5 < m.cols ∨ 0 ≤ t) :
    (decodeRow fmul frame t m j).isSome = true ↔
      ∃ mx, IsMaxOf mx (rowScores m j) ∧ t < mx := by
  rw [decodeRow_isSome_iff]
  by_cases hc : 5 < m.cols
  · have hmax := minMaxLoc_isMaxOf (rowScores m j) (rowScores_ne_nil m j hc)
    constructor
    · intro ht
      exact ⟨_, hmax, ht⟩
    · rintro ⟨mx, hmx, ht⟩
      rw [isMaxOf_unique hmax hmx]
      exact ht
  · have ht : 0 ≤ t := h.resolve_left hc
    have hnil := rowScores_eq_nil m j (not_lt.mp hc)
    rw [hnil]
    constructor
    · intro h0
      simp [minMaxLoc] at h0
      linarith
    · rintro ⟨mx, hmx, _⟩
      exact absurd hmx.1 (List.not_mem_nil _)

theorem rowLoop_eq (fmul : ℚ → Int → ℚ) (frame : Frame) (t : ℚ) (m : Mat)
    (hc : 5 ≤ m.cols) :
    ∀ (n j : Nat) (acc : List Detection),
      rowLoop fmul frame t m n j acc
        = some (acc ++ (List.range' j n).filterMap (decodeRow fmul frame t m)) := by
  intro n
  induction n with
  | zero => intro j acc; simp [rowLoop]
  | succ n ih =>
    intro j acc
    have hlt : ¬ m.cols < 5 := by omega
    rw [rowLoop, if_neg hlt, List.range'_succ, List.filterMap_cons]
    cases hd : decodeRow fmul frame t m j with
    | none => simp only [ih]
    | some d => simp only [ih, List.append_assoc, List.singleton_append]

theorem rowLoop_short (fmul : ℚ → Int → ℚ) (frame : Frame) (t : ℚ) (m : Mat)
    (hc : m.cols < 5) (n j : Nat) (acc : List Detection) :
    rowLoop fmul frame t m n j acc = if n = 0 then some acc else none := by
  cases n with
  | zero => simp [rowLoop]
  | succ n => simp [rowLoop, hc]

theorem rowLoop_rows (fmul : ℚ → Int → ℚ) (frame : Frame) (t : ℚ) (m : Mat)
    (acc : List Detection) :
    rowLoop fmul frame t m m.rows 0 acc
      = if m.rows = 0 ∨ 5 ≤ m.cols then some (acc ++ retainedRows fmul frame t m)
        else none := by
  by_cases hc : 5 ≤ m.cols
  · rw [rowLoop_eq fmul frame t m hc, if_pos (Or.inr hc), retainedRows,
      List.range_eq_range']
  · rw [rowLoop_short fmul frame t m (by omega)]
    by_cases hr : m.rows = 0
    · simp [hr, retainedRows]
    · simp [hr, hc]

theorem decodeLoop_eq (fmul : ℚ → Int → ℚ) (frame : Frame) (t : ℚ) (outs : List Mat) :
    ∀ acc : List Detection,
      decodeLoop fmul frame t outs acc
        = if ∀ m ∈ outs, m.rows = 0 ∨ 5 ≤ m.cols
          then some (acc ++ outs.flatMap (retainedRows fmul frame t)) else none := by
  induction outs with
  | nil => intro acc; simp [decodeLoop]
  | cons m rest ih =>
    intro acc
    rw [decodeLoop, rowLoop_rows]
    by_cases hm : m.rows = 0 ∨ 5 ≤ m.cols
    · simp only [hm, if_true, ih, List.forall_mem_cons, true_and, List.flatMap_cons,
        List.append_assoc]
    · simp only [hm, if_false, List.forall_mem_cons, false_and]

/-- The decode loop either throws, when some tensor with rows has fewer than five columns,
or returns the pushed rows tensor by tensor and row by row. -/
theorem decode_eq (fmul : ℚ → Int → ℚ) (frame : Frame) (t : ℚ) (outs : List Mat) :
    decode fmul frame t outs
      = if ∀ m ∈ outs, m.rows = 0 ∨ 5 ≤ m.cols
        then some (outs.flatMap (retainedRows fmul frame t)) else none := by
  rw [decode, decodeLoop_eq]
  simp

theorem decode_eq_some (fmul : ℚ → Int → ℚ) (frame : Frame) (t : ℚ) (outs : List Mat)
    (cands : List Detection) (h : decode fmul frame t outs = some cands) :
    cands = outs.flatMap (retainedRows fmul frame t) := by
  rw [decode_eq] at h
  split_ifs at h with hw
  exact (Option.some.inj h).symm

theorem mem_retainedRows (fmul : ℚ → Int → ℚ) (frame : Frame) (t : ℚ) (m : Mat)
    (d : Detection) :
    d ∈ retainedRows fmul frame t m ↔ ∃ j, j < m.rows ∧ decodeRow fmul frame t m j = some d := by
  simp [retainedRows, List.mem_filterMap]

theorem mem_decode (fmul : ℚ → Int → ℚ) (frame : Frame) (t : ℚ) (outs : List Mat)
    (cands : List Detection) (h : decode fmul frame t outs = some cands) (d : Detection) :
    d ∈ cands ↔ ∃ m ∈ outs, ∃ j, j < m.rows ∧ decodeRow fmul frame t m j = some d := by
  rw [decode_eq_some fmul frame t outs cands h]
  simp [List.mem_flatMap, mem_retainedRows]

/-! ## Lemmas on the greedy pass and on `NMSBoxes` -/

theorem greedyFuel_fuel {α : Type} (ov : α → α → ℚ) (thr : ℚ) :
    ∀ (n k : Nat) (l : List α), l.length ≤ n → l.length ≤ k →
      greedyFuel ov thr n l = greedyFuel ov thr k l := by
  intro n
  induction n with
  | zero =>
    intro k l hn _
    have hl : l = [] := List.length_eq_zero.mp (Nat.le_zero.mp hn)
    subst hl
    cases k <;> rfl
  | succ n ih =>
    intro k l hn hk
    cases l with
    | nil => cases k <;> rfl
    | cons a rest =>
      cases k with
      | zero => simp at hk
      | succ k =>
        simp only [greedyFuel]
        have hf := List.length_filter_le (fun b => decide (ov a b ≤ thr)) rest
        simp only [List.length_cons] at hn hk
        rw [ih k _ (by omega) (by omega)]

theorem greedy_nil {α : Type} (ov : α → α → ℚ) (thr : ℚ) : greedy ov thr ([] : List α) = [] :=
  rfl

theorem greedy_cons {α : Type} (ov : α → α → ℚ) (thr : ℚ) (a : α) (rest : List α) :
    greedy ov thr (a :: rest)
      = a :: greedy ov thr (rest.filter (fun b => decide (ov a b ≤ thr))) := by
  have hf := List.length_filter_le (fun b => decide (ov a b ≤ thr)) rest
  simp only [greedy, List.length_cons, greedyFuel]
  rw [greedyFuel_fuel ov thr rest.length _ _ hf le_rfl]

/-- Induction along the selections of the greedy pass. -/
theorem greedy_induction {α : Type} (ov : α → α → ℚ) (thr : ℚ) (P : List α → Prop)
    (hnil : P [])
    (hcons : ∀ a rest, P (rest.filter (fun b => decide (ov a b ≤ thr))) → P (a :: rest)) :
    ∀ l, P l := by
  have key : ∀ (n : Nat) (l : List α), l.length ≤ n → P l := by
    intro n
    induction n with
    | zero =>
      intro l hl
      have h0 : l = [] := List.length_eq_zero.mp (Nat.le_zero.mp hl)
      subst h0
      exact hnil
    | succ n ih =>
      intro l hl
      cases l with
      | nil => exact hnil
      | cons a rest =>
        apply hcons
        apply ih
        have hf := List.length_filter_le (fun b => decide (ov a b ≤ thr)) rest
        simp only [List.length_cons] at hl
        omega
  intro l
  exact key l.length l le_rfl

theorem greedy_sublist {α : Type} (ov : α → α → ℚ) (thr : ℚ) (l : List α) :
    (greedy ov thr l).Sublist l := by
  induction l using greedy_induction ov thr with
  | hnil => exact List.Sublist.slnil
  | hcons a rest ih =>
    rw [greedy_cons]
    exact List.Sublist.cons₂ a (ih.trans (List.filter_sublist rest))

theorem greedy_pairwise {α : Type} (ov : α → α → ℚ) (thr : ℚ) (l : List α) :
    (greedy ov thr l).Pairwise (fun a b => ov a b ≤ thr) := by
  induction l using greedy_induction ov thr with
  | hnil => exact List.Pairwise.nil
  | hcons a rest ih =>
    rw [greedy_cons, List.pairwise_cons]
    refine ⟨?_, ih⟩
    intro b hb
    have hb1 := (greedy_sublist ov thr _).subset hb
    simpa using (List.mem_filter.mp hb1).2

theorem greedy_of_pairwise {α : Type} (ov : α → α → ℚ) (thr : ℚ) :
    ∀ l : List α, l.Pairwise (fun a b => ov a b ≤ thr) → greedy ov thr l = l := by
  intro l
  induction l with
  | nil => intro _; rfl
  | cons a rest ih =>
    intro hp
    rw [List.pairwise_cons] at hp
    have hfil : rest.filter (fun b => decide (ov a b ≤ thr)) = rest := by
      rw [List.filter_eq_self]
      intro b hb
      simpa using hp.1 b hb
    rw [greedy_cons, hfil, ih hp.2]

theorem greedy_idem {α : Type} (ov : α → α → ℚ) (thr : ℚ) (l : List α) :
    greedy ov thr (greedy ov thr l) = greedy ov thr l :=
  greedy_of_pairwise ov thr _ (greedy_pairwise ov thr l)

theorem greedy_map {α β : Type} (g : α → β) (ov : β → β → ℚ) (thr : ℚ) (l : List α) :
    greedy ov thr (l.map g) = (greedy (fun a b => ov (g a) (g b)) thr l).map g := by
  induction l using greedy_induction (fun a b => ov (g a) (g b)) thr with
  | hnil => rfl
  | hcons a rest ih =>
    rw [List.map_cons, greedy_cons, greedy_cons, List.map_cons, List.filter_map]
    exact congrArg (fun t => g a :: t) ih

theorem range_map_getD {α : Type} (l : List α) (d : α) :
    (List.range l.length).map (fun i => l.getD i d) = l := by
  apply List.ext_getElem
  · simp
  · intro n h1 h2
    simp [List.getElem?_eq_getElem h2]

theorem interArea_comm (a b : Rect) : interArea a b = interArea b a := by
  unfold interArea
  rw [min_comm (a.x + a.width), max_comm a.x, min_comm (a.y + a.height), max_comm a.y]

theorem jaccard_comm (a b : Rect) : jaccard a b = jaccard b a := by
  unfold jaccard
  rw [interArea_comm a b, add_comm a.area]

/-- Every index returned by `NMSBoxes` is a position of the score vector. -/
theorem NMSBoxes_index_lt (bboxes : List Rect) (scores : List ℚ) (ct nt : ℚ) (idx : Nat)
    (h : idx ∈ NMSBoxes bboxes scores ct nt) : idx < scores.length := by
  unfold NMSBoxes at h
  have h1 := (greedy_sublist _ nt _).subset h
  have h2 := (List.mem_insertionSort _).mp h1
  exact List.mem_range.mp (List.mem_filter.mp h2).1

/-- The survivors, computed on the records themselves: filter by confidence, stable sort
by descending confidence, greedy pass on the box overlap. -/
theorem survivors_eq (cands : List Detection) (ct nt : ℚ) :
    survivors cands ct nt
      = greedy (fun a b => jaccard a.box b.box) nt
          ((cands.filter (fun d => decide (ct < d.confidence))).insertionSort
            (fun a b => b.confidence ≤ a.confidence)) := by
  have hbox : ∀ i : Nat, (cands.map (fun d => d.box)).getD i ⟨0, 0, 0, 0⟩
      = (cands.getD i ⟨0, 0, ⟨0, 0, 0, 0⟩⟩).box := fun i =>
    List.getD_map cands ⟨0, 0, ⟨0, 0, 0, 0⟩⟩ (fun d => d.box)
  have hconf : ∀ i : Nat, (cands.map (fun d => d.confidence)).getD i 0
      = (cands.getD i ⟨0, 0, ⟨0, 0, 0, 0⟩⟩).confidence := fun i =>
    List.getD_map cands ⟨0, 0, ⟨0, 0, 0, 0⟩⟩ (fun d => d.confidence)
  unfold survivors NMSBoxes
  simp only [hbox, hconf, List.length_map]
  rw [← greedy_map (fun idx => cands.getD idx ⟨0, 0, ⟨0, 0, 0, 0⟩⟩)
    (fun a b => jaccard a.box b.box) nt]
  congr 1
  rw [List.map_insertionSort (fun i k => (cands.getD k ⟨0, 0, ⟨0, 0, 0, 0⟩⟩).confidence
      ≤ (cands.getD i ⟨0, 0, ⟨0, 0, 0, 0⟩⟩).confidence)
    (fun a b : Detection => b.confidence ≤ a.confidence)
    (fun idx => cands.getD idx ⟨0, 0, ⟨0, 0, 0, 0⟩⟩) _ (fun _ _ _ _ => Iff.rfl)]
  congr 1
  have := List.filter_map (p := fun d : Detection => decide (ct < d.confidence))
    (fun idx => cands.getD idx ⟨0, 0, ⟨0, 0, 0, 0⟩⟩) (List.range cands.length)
  rw [range_map_getD] at this
  rw [this]
  rfl

/-! ## Lemmas on the side effects -/

theorem drawStep_eq (env : Env) (w : World) (d : Detection) :
    drawStep env w d
      = if d.classId = 0 then
          sendI2CMessage env "PERSON_DETECTED"
            ⟨w.busWrites, w.cerr, w.cout,
              w.rectangles ++ [(d.box.x, d.box.y, wrapInt (d.box.x + d.box.width),
                wrapInt (d.box.y + d.box.height))]⟩
        else w := by
  simp [drawStep, drawPred]

theorem sendI2CMessage_linux (env : Env) (message : String) (w : World)
    (h : env.isLinux = true) :
    (sendI2CMessage env message w).busWrites = w.busWrites ++ [message] ∧
      (sendI2CMessage env message w).cout = w.cout ∧
      (sendI2CMessage env message w).rectangles = w.rectangles := by
  unfold sendI2CMessage
  simp only [h, if_true]
  split_ifs <;> exact ⟨rfl, rfl, rfl⟩

theorem sendI2CMessage_simulation (env : Env) (message : String) (w : World)
    (h : env.isLinux = false) :
    sendI2CMessage env message w
      = ⟨w.busWrites, w.cerr, w.cout ++ ["[I2C Simulation] Sending message: " ++ message],
          w.rectangles⟩ := by
  simp [sendI2CMessage, h]

theorem postprocess_eq (env : Env) (frame : Frame) (outs : List Mat) (w : World) :
    postprocess env frame outs w
      = (decode env.fmul frame env.confThreshold outs).map
          (fun cands =>
            (survivors cands env.confThreshold env.nmsThreshold).foldl (drawStep env) w) := by
  unfold postprocess
  cases hd : decode env.fmul frame env.confThreshold outs with
  | none => rfl
  | some cands =>
    simp only [Option.map_some', survivors, List.foldl_map, drawStep]
    congr 1
    have hbox : ∀ i : Nat, (cands.map (fun d => d.box)).getD i ⟨0, 0, 0, 0⟩
        = (cands.getD i ⟨0, 0, ⟨0, 0, 0, 0⟩⟩).box := fun i =>
      List.getD_map cands ⟨0, 0, ⟨0, 0, 0, 0⟩⟩ (fun d => d.box)
    have hconf : ∀ i : Nat, (cands.map (fun d => d.confidence)).getD i 0
        = (cands.getD i ⟨0, 0, ⟨0, 0, 0, 0⟩⟩).confidence := fun i =>
      List.getD_map cands ⟨0, 0, ⟨0, 0, 0, 0⟩⟩ (fun d => d.confidence)
    have hcls : ∀ i : Nat, (cands.map (fun d => d.classId)).getD i 0
        = (cands.getD i ⟨0, 0, ⟨0, 0, 0, 0⟩⟩).classId := fun i =>
      List.getD_map cands ⟨0, 0, ⟨0, 0, 0, 0⟩⟩ (fun d => d.classId)
    simp only [hbox, hconf, hcls]

/-- What the final loop of `postprocess` writes to the bus in the Linux build: one
payload per survivor of class `0`, in order, and nothing on `cout`. -/
theorem foldl_drawStep_linux (env : Env) (h : env.isLinux = true) (S : List Detection) :
    ∀ w : World,
      (S.foldl (drawStep env) w).busWrites
          = w.busWrites
              ++ List.replicate (S.countP (fun d => decide (d.classId = 0))) "PERSON_DETECTED" ∧
        (S.foldl (drawStep env) w).cout = w.cout := by
  induction S with
  | nil => intro w; simp
  | cons d S ih =>
    intro w
    rw [List.foldl_cons]
    obtain ⟨h1, h2⟩ := ih (drawStep env w d)
    rw [h1, h2, drawStep_eq]
    by_cases hc : d.classId = 0
    · obtain ⟨hb, hco, _⟩ := sendI2CMessage_linux env "PERSON_DETECTED"
        ⟨w.busWrites, w.cerr, w.cout,
          w.rectangles ++ [(d.box.x, d.box.y, wrapInt (d.box.x + d.box.width),
            wrapInt (d.box.y + d.box.height))]⟩ h
      rw [if_pos hc, hb, hco, List.countP_cons_of_pos _ _ (by simpa using hc),
        List.replicate_succ]
      simp
    · rw [if_neg hc, List.countP_cons_of_neg _ _ (by simpa using hc)]
      exact ⟨rfl, rfl⟩

/-- What the final loop of `postprocess` prints in the build without `__linux__`: one
simulation line per survivor of class `0`; the bus and `cerr` are untouched. -/
theorem foldl_drawStep_simulation (env : Env) (h : env.isLinux = false)
    (S : List Detection) :
    ∀ w : World,
      (S.foldl (drawStep env) w).cout
          = w.cout
              ++ List.replicate (S.countP (fun d => decide (d.classId = 0)))
                  "[I2C Simulation] Sending message: PERSON_DETECTED" ∧
        (S.foldl (drawStep env) w).busWrites = w.busWrites ∧
        (S.foldl (drawStep env) w).cerr = w.cerr := by
  induction S with
  | nil => intro w; simp
  | cons d S ih =>
    intro w
    rw [List.foldl_cons]
    obtain ⟨h1, h2, h3⟩ := ih (drawStep env w d)
    rw [h1, h2, h3, drawStep_eq]
    by_cases hc : d.classId = 0
    · rw [if_pos hc, sendI2CMessage_simulation env _ _ h,
        List.countP_cons_of_pos _ _ (by simpa using hc), List.replicate_succ]
      refine ⟨?_, rfl, rfl⟩
      simp only [List.append_assoc, List.singleton_append]
      rfl
    · rw [if_neg hc, List.countP_cons_of_neg _ _ (by simpa using hc)]
      exact ⟨rfl, rfl, rfl⟩

/-- Without a survivor of class `0` the final loop changes nothing at all. -/
theorem foldl_drawStep_no_person (env : Env) (S : List Detection)
    (h : ∀ d ∈ S, d.classId ≠ 0) (w : World) : S.foldl (drawStep env) w = w := by
  induction S generalizing w with
  | nil => rfl
  | cons d S ih =>
    rw [List.foldl_cons, drawStep_eq, if_neg (h d (List.mem_cons_self d S))]
    exact ih (fun e he => h e (List.mem_cons_of_mem d he)) w

theorem drawStep_withoutCerr (env other : Env) (hs : env.sameButWrites other)
    (w v : World) (hw : w.withoutCerr = v.withoutCerr) (d : Detection) :
    (drawStep env w d).withoutCerr = (drawStep other v d).withoutCerr := by
  obtain ⟨hl, -, -, -⟩ := hs
  simp only [World.withoutCerr, World.mk.injEq, true_and] at hw
  obtain ⟨hb, hc, hr⟩ := hw
  rw [drawStep_eq, drawStep_eq]
  by_cases hcls : d.classId = 0
  · rw [if_pos hcls, if_pos hcls]
    unfold sendI2CMessage
    rw [hl]
    cases env.isLinux
    · simp [World.withoutCerr, hb, hc, hr]
    · simp only [if_true, hb, hr, hc]
      split_ifs <;> simp [World.withoutCerr]
  · rw [if_neg hcls, if_neg hcls]
    simp [World.withoutCerr, hb, hc, hr]

theorem foldl_drawStep_withoutCerr (env other : Env) (hs : env.sameButWrites other)
    (S : List Detection) :
    ∀ w v : World, w.withoutCerr = v.withoutCerr →
      (S.foldl (drawStep env) w).withoutCerr = (S.foldl (drawStep other) v).withoutCerr := by
  induction S with
  | nil => intro w v hw; exact hw
  | cons d S ih =>
    intro w v hw
    rw [List.foldl_cons, List.foldl_cons]
    exact ih _ _ (drawStep_withoutCerr env other hs w v hw d)

theorem postprocess_withoutCerr (env other : Env) (hs : env.sameButWrites other)
    (frame : Frame) (outs : List Mat) (w v : World) (hw : w.withoutCerr = v.withoutCerr) :
    (postprocess env frame outs w).map World.withoutCerr
      = (postprocess other frame outs v).map World.withoutCerr := by
  rw [postprocess_eq, postprocess_eq, hs.2.1, hs.2.2.1, hs.2.2.2]
  cases decode env.fmul frame env.confThreshold outs with
  | none => rfl
  | some cands =>
    simp only [Option.map_some']
    exact congrArg some (foldl_drawStep_withoutCerr env other hs _ w v hw)

theorem processFrames_withoutCerr (env other : Env) (hs : env.sameButWrites other)
    (frames : List (Frame × List Mat)) :
    ∀ w v : World, w.withoutCerr = v.withoutCerr →
      (processFrames env frames w).map World.withoutCerr
        = (processFrames other frames v).map World.withoutCerr := by
  induction frames with
  | nil => intro w v hw; simp [processFrames, hw]
  | cons f rest ih =>
    intro w v hw
    have hp := postprocess_withoutCerr env other hs f.1 f.2 w v hw
    simp only [processFrames]
    cases h1 : postprocess env f.1 f.2 w with
    | none =>
      rw [h1] at hp
      cases h2 : postprocess other f.1 f.2 v with
      | none => rfl
      | some v1 => rw [h2] at hp; simp at hp
    | some w1 =>
      rw [h1] at hp
      cases h2 : postprocess other f.1 f.2 v with
      | none => rw [h2] at hp; simp at hp
      | some v1 =>
        rw [h2] at hp
        simp only [Option.map_some', Option.some.injEq] at hp
        exact ih w1 v1 hp

theorem postprocess_busWrites (env : Env) (h : env.isLinux = true) (frame : Frame)
    (outs : List Mat) (w v : World) (hp : postprocess env frame outs w = some v) :
    v.busWrites
      = w.busWrites ++ List.replicate (personCount env (frame, outs)) "PERSON_DETECTED" := by
  rw [postprocess_eq] at hp
  unfold personCount frameSurvivors
  cases hd : decode env.fmul frame env.confThreshold outs with
  | none => rw [hd] at hp; simp at hp
  | some cands =>
    rw [hd] at hp
    simp only [Option.map_some', Option.some.injEq] at hp
    rw [← hp]
    exact (foldl_drawStep_linux env h _ w).1

theorem processFrames_busWrites (env : Env) (h : env.isLinux = true)
    (frames : List (Frame × List Mat)) :
    ∀ w v : World, processFrames env frames w = some v →
      v.busWrites
        = w.busWrites
            ++ List.replicate ((frames.map (personCount env)).sum) "PERSON_DETECTED" := by
  induction frames with
  | nil =>
    intro w v hp
    simp only [processFrames, Option.some.injEq] at hp
    simp [hp]
  | cons f rest ih =>
    intro w v hp
    simp only [processFrames] at hp
    cases h1 : postprocess env f.1 f.2 w with
    | none => rw [h1] at hp; simp at hp
    | some w1 =>
      rw [h1] at hp
      rw [ih w1 v hp, postprocess_busWrites env h f.1 f.2 w w1 h1, List.map_cons,
        List.sum_cons, List.replicate_add, List.append_assoc]

theorem decode_total (fmul : ℚ → Int → ℚ) (frame : Frame) (t : ℚ) (outs : List Mat)
    (hwf : ∀ m ∈ outs, m.rows = 0 ∨ 5 ≤ m.cols) :
    decode fmul frame t outs = some (outs.flatMap (retainedRows fmul frame t)) := by
  rw [decode_eq, if_pos hwf]

theorem decode_throws (fmul : ℚ → Int → ℚ) (frame : Frame) (t : ℚ) (outs : List Mat)
    (m : Mat) (hm : m ∈ outs) (hrows : m.rows ≠ 0) (hcols : m.cols < 5) :
    decode fmul frame t outs = none := by
  rw [decode_eq, if_neg]
  intro hwf
  rcases hwf m hm with h | h
  · exact hrows h
  · omega

theorem survivors_nil (ct nt : ℚ) : survivors [] ct nt = [] := by
  rw [survivors_eq]
  rfl

theorem postprocess_total (env : Env) (frame : Frame) (outs : List Mat) (w : World)
    (hwf : ∀ m ∈ outs, m.rows = 0 ∨ 5 ≤ m.cols) :
    ∃ v, postprocess env frame outs w = some v := by
  rw [postprocess_eq, decode_total env.fmul frame env.confThreshold outs hwf]
  exact ⟨_, rfl⟩

theorem processFrames_total (env : Env) (frames : List (Frame × List Mat))
    (hwf : ∀ f ∈ frames, ∀ m ∈ f.2, m.rows = 0 ∨ 5 ≤ m.cols) :
    ∀ w : World, ∃ v, processFrames env frames w = some v := by
  induction frames with
  | nil => intro w; exact ⟨w, rfl⟩
  | cons f rest ih =>
    intro w
    obtain ⟨w1, h1⟩ := postprocess_total env f.1 f.2 w (hwf f (List.mem_cons_self f rest))
    obtain ⟨v, hv⟩ := ih (fun g hg => hwf g (List.mem_cons_of_mem f hg)) w1
    exact ⟨v, by simp only [processFrames, h1, hv]⟩

theorem postprocess_no_person (env : Env) (frame : Frame) (outs : List Mat) (w v : World)
    (hp : postprocess env frame outs w = some v) (h0 : personCount env (frame, outs) = 0) :
    v = w := by
  rw [postprocess_eq] at hp
  unfold personCount frameSurvivors at h0
  cases hd : decode env.fmul frame env.confThreshold outs with
  | none => rw [hd] at hp; simp at hp
  | some cands =>
    rw [hd] at hp h0
    simp only [Option.map_some', Option.some.injEq] at hp
    rw [← hp]
    apply foldl_drawStep_no_person
    intro d hd0
    have := List.countP_eq_zero.mp h0 d hd0
    simpa using this

theorem postprocess_cout (env : Env) (h : env.isLinux = false) (frame : Frame)
    (outs : List Mat) (w v : World) (hp : postprocess env frame outs w = some v) :
    v.cout
        = w.cout
            ++ List.replicate (personCount env (frame, outs))
                "[I2C Simulation] Sending message: PERSON_DETECTED" ∧
      v.busWrites = w.busWrites := by
  rw [postprocess_eq] at hp
  unfold personCount frameSurvivors
  cases hd : decode env.fmul frame env.confThreshold outs with
  | none => rw [hd] at hp; simp at hp
  | some cands =>
    rw [hd] at hp
    simp only [Option.map_some', Option.some.injEq] at hp
    rw [← hp]
    obtain ⟨h1, h2, _⟩ := foldl_drawStep_simulation env h
      (survivors cands env.confThreshold env.nmsThreshold) w
    exact ⟨h1, h2⟩

theorem processFrames_cout (env : Env) (h : env.isLinux = false)
    (frames : List (Frame × List Mat)) :
    ∀ w v : World, processFrames env frames w = some v →
      v.cout
        = w.cout
            ++ List.replicate ((frames.map (personCount env)).sum)
                "[I2C Simulation] Sending message: PERSON_DETECTED" := by
  induction frames with
  | nil =>
    intro w v hp
    simp only [processFrames, Option.some.injEq] at hp
    simp [hp]
  | cons f rest ih =>
    intro w v hp
    simp only [processFrames] at hp
    cases h1 : postprocess env f.1 f.2 w with
    | none => rw [h1] at hp; simp at hp
    | some w1 =>
      rw [h1] at hp
      rw [ih w1 v hp, (postprocess_cout env h f.1 f.2 w w1 h1).1, List.map_cons,
        List.sum_cons, List.replicate_add, List.append_assoc]

/-- Whenever the decode loop returns, its candidates all exceed the threshold, a row is
among them exactly when the maximum of its score columns exceeds the threshold, and a row
whose maximum equals the threshold is skipped. -/
theorem decode_retains_of_some (fmul : ℚ → Int → ℚ) (frame : Frame) (t : ℚ)
    (outs : List Mat) (cands : List Detection)
    (h : decode fmul frame t outs = some cands) :
    (∀ d ∈ cands, t < d.confidence) ∧
      (∀ m ∈ outs, ∀ j, j < m.rows → (5 < m.cols ∨ 0 ≤ t) →
        ((∃ d ∈ cands, decodeRow fmul frame t m j = some d) ↔
          ∃ mx, IsMaxOf mx (rowScores m j) ∧ t < mx)) ∧
      (∀ m ∈ outs, ∀ j, j < m.rows → IsMaxOf t (rowScores m j) →
        decodeRow fmul frame t m j = none) := by
  refine ⟨?_, ?_, ?_⟩
  · intro d hd
    obtain ⟨m, _, j, _, hrow⟩ := (mem_decode fmul frame t outs cands h d).mp hd
    obtain ⟨ht, hval⟩ := (decodeRow_eq_some_iff fmul frame t m j d).mp hrow
    rw [hval]
    exact ht
  · intro m hm j hj hcols
    rw [← decodeRow_isSome_iff_max fmul frame t m j hcols, Option.isSome_iff_exists]
    constructor
    · rintro ⟨d, _, hrow⟩
      exact ⟨d, hrow⟩
    · rintro ⟨d, hrow⟩
      exact ⟨d, (mem_decode fmul frame t outs cands h d).mpr ⟨m, hm, j, hj, hrow⟩, hrow⟩
  · intro m _ j _ hmax
    have hne : rowScores m j ≠ [] := List.ne_nil_of_mem hmax.1
    have hval := isMaxOf_unique (minMaxLoc_isMaxOf (rowScores m j) hne) hmax
    cases hrow : decodeRow fmul frame t m j with
    | none => rfl
    | some d =>
      have ht := ((decodeRow_eq_some_iff fmul frame t m j d).mp hrow).1
      rw [hval] at ht
      exact absurd ht (lt_irrefl t)

/-- The recorded class of a retained row that has a score column is a position of the
maximum among columns `5 .. cols - 1`. -/
theorem decodeRow_argmax (fmul : ℚ → Int → ℚ) (frame : Frame) (t : ℚ) (m : Mat) (j : Nat)
    (d : Detection) (hrow : decodeRow fmul frame t m j = some d)
    (hcols : 5 < m.cols ∨ 0 ≤ t) :
    0 ≤ d.classId ∧ d.classId.toNat < m.cols - 5 ∧
      m.at j (5 + d.classId.toNat) = d.confidence ∧
      IsMaxOf d.confidence (rowScores m j) := by
  obtain ⟨ht, hval⟩ := (decodeRow_eq_some_iff fmul frame t m j d).mp hrow
  have hc : 5 < m.cols := by
    by_contra hn
    have h0 : 0 ≤ t := hcols.resolve_left hn
    rw [rowScores_eq_nil m j (not_lt.mp hn)] at ht
    simp [minMaxLoc] at ht
    linarith
  have hne := rowScores_ne_nil m j hc
  obtain ⟨h1, h2, _⟩ := minMaxLoc_spec (rowScores m j) hne
  have hlen : (rowScores m j).length = m.cols - 5 := by simp [rowScores]
  have hlt : (minMaxLoc (rowScores m j)).2.toNat < m.cols - 5 := by
    rw [← hlen]
    exact (List.getElem?_eq_some_iff.mp h2).1
  rw [rowScores_getElem? m j _ hlt] at h2
  rw [hval]
  exact ⟨h1, hlt, Option.some.inj h2, minMaxLoc_isMaxOf (rowScores m j) hne⟩

/-- Outside the range of `int` the model follows the compiled conversion: the centre
`1e10 * 640` is stored as `INT_MIN`. -/
theorem decode_out_of_range_conversion :
    decode exactMul vga (1 / 2) [⟨1, 6, [10000000000, 1 / 2, 0, 0, 0, 3 / 4]⟩]
      = some [⟨0, 3 / 4, ⟨-2147483648, 240, 0, 0⟩⟩] := by
  decide!

/-! ## Claims on the decode loop -/

/-- C1: on tensors that have at least five columns the decode loop of `postprocess`
returns, and a row of a tensor is retained as a candidate exactly when the maximum of its
score columns is strictly greater than the threshold `t` (for a row that has a score
column, or a threshold that is not negative); every candidate has confidence greater than
`t`, and a row whose maximum score equals `t` is discarded. -/
theorem decode_retains_iff_max_exceeds (fmul : ℚ → Int → ℚ) (frame : Frame) (t : ℚ)
    (outs : List Mat) (hwf : ∀ m ∈ outs, m.rows = 0 ∨ 5 ≤ m.cols) :
    ∃ cands, decode fmul frame t outs = some cands ∧
      (∀ d ∈ cands, t < d.confidence) ∧
      (∀ m ∈ outs, ∀ j, j < m.rows → (5 < m.cols ∨ 0 ≤ t) →
        ((∃ d ∈ cands, decodeRow fmul frame t m j = some d) ↔
          ∃ mx, IsMaxOf mx (rowScores m j) ∧ t < mx)) ∧
      (∀ m ∈ outs, ∀ j, j < m.rows → IsMaxOf t (rowScores m j) →
        decodeRow fmul frame t m j = none) :=
  ⟨_, decode_total fmul frame t outs hwf,
    decode_retains_of_some fmul frame t outs _ (decode_total fmul frame t outs hwf)⟩

/-- Witness of C1: a frame with one tensor of one row whose only score `0.75` exceeds the
threshold `0.5`. -/
theorem decode_retains_iff_max_exceeds_witness :
    decode exactMul vga (1 / 2) [personTensor] = some [⟨0, 3 / 4, ⟨240, 180, 160, 120⟩⟩] ∧
      ∃ cands, decode exactMul vga (1 / 2) [personTensor] = some cands ∧
        ∀ d ∈ cands, (1 / 2 : ℚ) < d.confidence := by
  refine ⟨by decide!, ?_⟩
  obtain ⟨cands, h1, h2, _⟩ :=
    decode_retains_iff_max_exceeds exactMul vga (1 / 2) [personTensor] (by decide)
  exact ⟨cands, h1, h2⟩

/-- C2, as stated, fails: with the row layout `[centerX, centerY, w, h, score_0, score_1,
score_2]` and the scores `0.875, 0.625, 0.75`, the recorded class is `1` with confidence
`0.75`, while the maximum of the score segment of that layout is `0.875` at index `0`. -/
theorem classId_segment_counterexample :
    decode exactMul vga (1 / 2)
        [⟨1, 7, [1 / 2, 1 / 2, 1 / 4, 1 / 4, 7 / 8, 5 / 8, 3 / 4]⟩]
      = some [⟨1, 3 / 4, ⟨240, 180, 160, 120⟩⟩] ∧
    specScoreSegment ⟨1, 7, [1 / 2, 1 / 2, 1 / 4, 1 / 4, 7 / 8, 5 / 8, 3 / 4]⟩ 0
      = [7 / 8, 5 / 8, 3 / 4] ∧
    ¬ IsMaxOf (3 / 4)
      (specScoreSegment ⟨1, 7, [1 / 2, 1 / 2, 1 / 4, 1 / 4, 7 / 8, 5 / 8, 3 / 4]⟩ 0) := by
  refine ⟨by decide!, by decide!, ?_⟩
  intro hmax
  have hseg : specScoreSegment ⟨1, 7, [1 / 2, 1 / 2, 1 / 4, 1 / 4, 7 / 8, 5 / 8, 3 / 4]⟩ 0
      = [7 / 8, 5 / 8, 3 / 4] := by decide!
  rw [hseg] at hmax
  have h9 := hmax.2 (7 / 8) (by simp)
  norm_num at h9

/-- C2, amended: on tensors that have at least five columns the decode loop returns, and
for every row it retains (a row that has a score column, or any row under a threshold
that is not negative) the recorded `classId` is a position within columns `5 .. cols - 1`
of the row, the entry of the row at that position is the recorded confidence, and the
recorded confidence is the maximum of those columns.  Column 4 is not part of the
segment. -/
theorem decode_classId_is_argmax_from_column_five (fmul : ℚ → Int → ℚ) (frame : Frame)
    (t : ℚ) (outs : List Mat) (m : Mat) (j : Nat) (d : Detection)
    (hwf : ∀ m ∈ outs, m.rows = 0 ∨ 5 ≤ m.cols) (hm : m ∈ outs) (hj : j < m.rows)
    (hrow : decodeRow fmul frame t m j = some d) (hcols : 5 < m.cols ∨ 0 ≤ t) :
    ∃ cands, decode fmul frame t outs = some cands ∧ d ∈ cands ∧
      0 ≤ d.classId ∧ d.classId.toNat < m.cols - 5 ∧
      m.at j (5 + d.classId.toNat) = d.confidence ∧
      IsMaxOf d.confidence (rowScores m j) :=
  ⟨_, decode_total fmul frame t outs hwf,
    (mem_decode fmul frame t outs _ (decode_total fmul frame t outs hwf) d).mpr
      ⟨m, hm, j, hj, hrow⟩,
    decodeRow_argmax fmul frame t m j d hrow hcols⟩

/-- Witness of the amended C2 on the row of the counterexample: class `1` is the position
of `0.75` within columns `5 .. 6`. -/
theorem decode_classId_is_argmax_from_column_five_witness :
    decodeRow exactMul vga (1 / 2)
        ⟨1, 7, [1 / 2, 1 / 2, 1 / 4, 1 / 4, 7 / 8, 5 / 8, 3 / 4]⟩ 0
      = some ⟨1, 3 / 4, ⟨240, 180, 160, 120⟩⟩ ∧
    ∃ cands,
      decode exactMul vga (1 / 2)
          [⟨1, 7, [1 / 2, 1 / 2, 1 / 4, 1 / 4, 7 / 8, 5 / 8, 3 / 4]⟩] = some cands ∧
        (⟨1, 3 / 4, ⟨240, 180, 160, 120⟩⟩ : Detection) ∈ cands ∧
        IsMaxOf (⟨1, 3 / 4, ⟨240, 180, 160, 120⟩⟩ : Detection).confidence
          (rowScores ⟨1, 7, [1 / 2, 1 / 2, 1 / 4, 1 / 4, 7 / 8, 5 / 8, 3 / 4]⟩ 0) := by
  refine ⟨by decide!, ?_⟩
  obtain ⟨cands, h1, h2, _, _, _, h6⟩ :=
    decode_classId_is_argmax_from_column_five exactMul vga (1 / 2)
      [⟨1, 7, [1 / 2, 1 / 2, 1 / 4, 1 / 4, 7 / 8, 5 / 8, 3 / 4]⟩]
      ⟨1, 7, [1 / 2, 1 / 2, 1 / 4, 1 / 4, 7 / 8, 5 / 8, 3 / 4]⟩ 0
      ⟨1, 3 / 4, ⟨240, 180, 160, 120⟩⟩
      (by decide) (by simp) (by decide) (by decide!) (Or.inl (by decide))
  exact ⟨cands, h1, h2, h6⟩

/-- C6: on tensors that have at least five columns the decode loop returns, and for every
row it retains the candidate box has the truncated products `w * frame.cols` and
`h * frame.rows` as width and height, and `left`, `top` are the truncated products
`centerX * frame.cols`, `centerY * frame.rows` minus half the pixel width and height in
integer division, whenever the four truncated products and the two differences are values
of `int`; within that range the values are stored as computed, whatever their sign and
wherever the box lies relative to the frame. -/
theorem decode_box_unclamped (fmul : ℚ → Int → ℚ) (frame : Frame) (t : ℚ)
    (outs : List Mat) (m : Mat) (j : Nat) (d : Detection)
    (hwf : ∀ m ∈ outs, m.rows = 0 ∨ 5 ≤ m.cols) (hm : m ∈ outs) (hj : j < m.rows)
    (hrow : decodeRow fmul frame t m j = some d)
    (hcx : InIntRange (truncQ (fmul (m.at j 0) frame.cols)))
    (hcy : InIntRange (truncQ (fmul (m.at j 1) frame.rows)))
    (hw : InIntRange (truncQ (fmul (m.at j 2) frame.cols)))
    (hh : InIntRange (truncQ (fmul (m.at j 3) frame.rows)))
    (hleft : InIntRange (truncQ (fmul (m.at j 0) frame.cols)
      - Int.tdiv (truncQ (fmul (m.at j 2) frame.cols)) 2))
    (htop : InIntRange (truncQ (fmul (m.at j 1) frame.rows)
      - Int.tdiv (truncQ (fmul (m.at j 3) frame.rows)) 2)) :
    ∃ cands, decode fmul frame t outs = some cands ∧ d ∈ cands ∧
      d.box.width = truncQ (fmul (m.at j 2) frame.cols) ∧
      d.box.height = truncQ (fmul (m.at j 3) frame.rows) ∧
      d.box.x = truncQ (fmul (m.at j 0) frame.cols) - Int.tdiv d.box.width 2 ∧
      d.box.y = truncQ (fmul (m.at j 1) frame.rows) - Int.tdiv d.box.height 2 := by
  have hdec := decode_total fmul frame t outs hwf
  have hmem := (mem_decode fmul frame t outs _ hdec d).mpr ⟨m, hm, j, hj, hrow⟩
  obtain ⟨_, hval⟩ := (decodeRow_eq_some_iff fmul frame t m j d).mp hrow
  refine ⟨_, hdec, hmem, ?_⟩
  rw [hval]
  refine ⟨truncToInt_of_inRange _ hw, truncToInt_of_inRange _ hh, ?_, ?_⟩
  · show wrapInt (truncToInt _ - Int.tdiv (truncToInt _) 2)
      = truncQ _ - Int.tdiv (truncToInt _) 2
    rw [truncToInt_of_inRange _ hcx, truncToInt_of_inRange _ hw,
      wrapInt_of_inRange _ hleft]
  · show wrapInt (truncToInt _ - Int.tdiv (truncToInt _) 2)
      = truncQ _ - Int.tdiv (truncToInt _) 2
    rw [truncToInt_of_inRange _ hcy, truncToInt_of_inRange _ hh,
      wrapInt_of_inRange _ htop]

/-- Witness of C6: a box centred at `(5, 3)` of size `160 x 120` keeps the negative corner
`(-75, -57)`. -/
theorem decode_box_unclamped_witness :
    decodeRow exactMul vga (1 / 2) ⟨1, 6, [1 / 128, 1 / 128, 1 / 4, 1 / 4, 0, 3 / 4]⟩ 0
      = some ⟨0, 3 / 4, ⟨-75, -57, 160, 120⟩⟩ ∧
    ∃ cands,
      decode exactMul vga (1 / 2) [⟨1, 6, [1 / 128, 1 / 128, 1 / 4, 1 / 4, 0, 3 / 4]⟩]
          = some cands ∧
        (⟨0, 3 / 4, ⟨-75, -57, 160, 120⟩⟩ : Detection) ∈ cands ∧
        (⟨0, 3 / 4, ⟨-75, -57, 160, 120⟩⟩ : Detection).box.x
          = truncQ (exactMul
              ((⟨1, 6, [1 / 128, 1 / 128, 1 / 4, 1 / 4, 0, 3 / 4]⟩ : Mat).at 0 0) vga.cols)
            - Int.tdiv (⟨0, 3 / 4, ⟨-75, -57, 160, 120⟩⟩ : Detection).box.width 2 := by
  refine ⟨by decide!, ?_⟩
  obtain ⟨cands, h1, h2, _, _, h5, _⟩ :=
    decode_box_unclamped exactMul vga (1 / 2)
      [⟨1, 6, [1 / 128, 1 / 128, 1 / 4, 1 / 4, 0, 3 / 4]⟩]
      ⟨1, 6, [1 / 128, 1 / 128, 1 / 4, 1 / 4, 0, 3 / 4]⟩ 0
      ⟨0, 3 / 4, ⟨-75, -57, 160, 120⟩⟩
      (by decide) (by simp) (by decide) (by decide!) (by decide!) (by decide!) (by decide!)
      (by decide!) (by decide!) (by decide!)
  exact ⟨cands, h1, h2, h5⟩

/-- C7, as stated, fails: a row with zero width and height and score `0.75` is retained,
with a box of width `0` and height `0`. -/
theorem degenerate_box_counterexample :
    decode exactMul vga (1 / 2) [⟨1, 6, [1 / 2, 1 / 2, 0, 0, 0, 3 / 4]⟩]
      = some [⟨0, 3 / 4, ⟨320, 240, 0, 0⟩⟩] ∧
    ¬ (0 < (⟨0, 3 / 4, ⟨320, 240, 0, 0⟩⟩ : Detection).box.width ∧
        0 < (⟨0, 3 / 4, ⟨320, 240, 0, 0⟩⟩ : Detection).box.height) := by
  refine ⟨by decide!, by decide⟩

/-- C7, amended: the decode loop does not look at the box when it retains a row.  On
tensors that have at least five columns it returns, every retained row is a candidate, and
whenever the truncated scaled width and height are values of `int`, the width (height) of
the candidate is positive exactly when the scaled width `w * frame.cols` (height
`h * frame.rows`) is at least one pixel. -/
theorem decode_box_positive_iff (fmul : ℚ → Int → ℚ) (frame : Frame) (t : ℚ)
    (outs : List Mat) (m : Mat) (j : Nat) (d : Detection)
    (hwf : ∀ m ∈ outs, m.rows = 0 ∨ 5 ≤ m.cols) (hm : m ∈ outs) (hj : j < m.rows)
    (hrow : decodeRow fmul frame t m j = some d)
    (hw : InIntRange (truncQ (fmul (m.at j 2) frame.cols)))
    (hh : InIntRange (truncQ (fmul (m.at j 3) frame.rows))) :
    ∃ cands, decode fmul frame t outs = some cands ∧ d ∈ cands ∧
      (0 < d.box.width ↔ 1 ≤ fmul (m.at j 2) frame.cols) ∧
      (0 < d.box.height ↔ 1 ≤ fmul (m.at j 3) frame.rows) := by
  have hdec := decode_total fmul frame t outs hwf
  have hmem := (mem_decode fmul frame t outs _ hdec d).mpr ⟨m, hm, j, hj, hrow⟩
  obtain ⟨_, hval⟩ := (decodeRow_eq_some_iff fmul frame t m j d).mp hrow
  refine ⟨_, hdec, hmem, ?_⟩
  rw [hval]
  simp only [truncToInt_of_inRange _ hw, truncToInt_of_inRange _ hh]
  exact ⟨truncQ_pos_iff _, truncQ_pos_iff _⟩

/-- Witness of the amended C7 on the row of the counterexample: the row is a candidate
although its width is zero. -/
theorem decode_box_positive_iff_witness :
    decodeRow exactMul vga (1 / 2) ⟨1, 6, [1 / 2, 1 / 2, 0, 0, 0, 3 / 4]⟩ 0
      = some ⟨0, 3 / 4, ⟨320, 240, 0, 0⟩⟩ ∧
    ∃ cands,
      decode exactMul vga (1 / 2) [⟨1, 6, [1 / 2, 1 / 2, 0, 0, 0, 3 / 4]⟩] = some cands ∧
        (⟨0, 3 / 4, ⟨320, 240, 0, 0⟩⟩ : Detection) ∈ cands ∧
        (0 < (⟨0, 3 / 4, ⟨320, 240, 0, 0⟩⟩ : Detection).box.width ↔
          1 ≤ exactMul ((⟨1, 6, [1 / 2, 1 / 2, 0, 0, 0, 3 / 4]⟩ : Mat).at 0 2) vga.cols) := by
  refine ⟨by decide!, ?_⟩
  obtain ⟨cands, h1, h2, h3, _⟩ :=
    decode_box_positive_iff exactMul vga (1 / 2)
      [⟨1, 6, [1 / 2, 1 / 2, 0, 0, 0, 3 / 4]⟩]
      ⟨1, 6, [1 / 2, 1 / 2, 0, 0, 0, 3 / 4]⟩ 0
      ⟨0, 3 / 4, ⟨320, 240, 0, 0⟩⟩
      (by decide) (by simp) (by decide) (by decide!) (by decide!) (by decide!)
  exact ⟨cands, h1, h2, h3⟩

/-! ## Claims on the suppression step -/

/-- C3: any two survivors at distinct positions of the list returned by the suppression
step have Jaccard overlap at most the overlap threshold, whatever their class ids. -/
theorem survivors_pairwise_overlap (cands : List Detection) (ct nt : ℚ) (i j : Nat)
    (hi : i < (survivors cands ct nt).length) (hj : j < (survivors cands ct nt).length)
    (hne : i ≠ j) :
    jaccard (survivors cands ct nt)[i].box (survivors cands ct nt)[j].box ≤ nt := by
  have hp : (survivors cands ct nt).Pairwise (fun a b => jaccard a.box b.box ≤ nt) := by
    rw [survivors_eq]
    exact greedy_pairwise (fun a b : Detection => jaccard a.box b.box) nt _
  rw [List.pairwise_iff_getElem] at hp
  rcases Nat.lt_or_gt_of_ne hne with hlt | hgt
  · exact hp i j hi hj hlt
  · rw [jaccard_comm]
    exact hp j i hj hi hgt

/-- Witness of C3 on the candidates of the suppression scenario: the two survivors do not
overlap. -/
theorem survivors_pairwise_overlap_witness :
    (survivors scenarioCandidates (1 / 2) (1 / 2)).length = 2 ∧
      jaccard ((survivors scenarioCandidates (1 / 2) (1 / 2)).getD 0 ⟨0, 0, ⟨0, 0, 0, 0⟩⟩).box
        ((survivors scenarioCandidates (1 / 2) (1 / 2)).getD 1 ⟨0, 0, ⟨0, 0, 0, 0⟩⟩).box
        ≤ 1 / 2 := by
  have h0 : 0 < (survivors scenarioCandidates (1 / 2) (1 / 2)).length := by decide!
  have h1 : 1 < (survivors scenarioCandidates (1 / 2) (1 / 2)).length := by decide!
  refine ⟨by decide!, ?_⟩
  rw [List.getD_eq_getElem _ _ h0, List.getD_eq_getElem _ _ h1]
  exact survivors_pairwise_overlap scenarioCandidates (1 / 2) (1 / 2) 0 1 h0 h1 (by decide)

/-- C5, as stated, fails: on the scenario the suppression step does not return the
class-0 box first. -/
theorem scenario_order_counterexample :
    survivors scenarioCandidates (1 / 2) (1 / 2)
      ≠ [⟨0, 9 / 10, ⟨0, 0, 10, 10⟩⟩, ⟨3, 95 / 100, ⟨50, 50, 5, 5⟩⟩] := by
  decide!

/-- C5, amended: on the scenario the suppression step returns the class-3 box of
confidence `0.95` first and the class-0 box of confidence `0.9` second; the class-0 box of
confidence `0.8` is suppressed (its overlap `81 / 119` with the first class-0 box exceeds
`0.5`). -/
theorem scenario_survivors :
    survivors scenarioCandidates (1 / 2) (1 / 2)
        = [⟨3, 95 / 100, ⟨50, 50, 5, 5⟩⟩, ⟨0, 9 / 10, ⟨0, 0, 10, 10⟩⟩] ∧
      jaccard (⟨0, 0, 10, 10⟩ : Rect) ⟨1, 1, 10, 10⟩ = 81 / 119 := by
  constructor <;> decide!

/-- C8: running the suppression step on its own survivor list with the same thresholds
returns that list unchanged, elements and order. -/
theorem survivors_idempotent (cands : List Detection) (ct nt : ℚ) :
    survivors (survivors cands ct nt) ct nt = survivors cands ct nt := by
  have hsub := greedy_sublist (fun a b : Detection => jaccard a.box b.box) nt
    ((cands.filter (fun d => decide (ct < d.confidence))).insertionSort
      (fun a b => b.confidence ≤ a.confidence))
  haveI : IsTotal Detection (fun a b => b.confidence ≤ a.confidence) :=
    ⟨fun a b => le_total b.confidence a.confidence⟩
  haveI : IsTrans Detection (fun a b => b.confidence ≤ a.confidence) :=
    ⟨fun _ _ _ hab hbc => le_trans hbc hab⟩
  have hsorted : (survivors cands ct nt).Sorted (fun a b => b.confidence ≤ a.confidence) := by
    rw [survivors_eq]
    exact List.Pairwise.sublist hsub (List.sorted_insertionSort _ _)
  have hfilter : (survivors cands ct nt).filter (fun d => decide (ct < d.confidence))
      = survivors cands ct nt := by
    rw [List.filter_eq_self]
    intro d hd
    rw [survivors_eq] at hd
    have h1 := (List.mem_insertionSort _).mp (hsub.subset hd)
    exact (List.mem_filter.mp h1).2
  rw [survivors_eq (survivors cands ct nt), hfilter, hsorted.insertionSort_eq]
  rw [survivors_eq]
  exact greedy_idem _ nt _

/-! ## Claims on the messages sent -/

/-- C4, as stated, fails: on the frames person, person, person, none, person, each person
frame holding one person box, `postprocess` sends four messages, while the sequence has
two rising edges. -/
theorem rising_edge_counterexample :
    (processFrames workingEnv fiveFrames emptyWorld).map (fun w => w.busWrites)
      = some ["PERSON_DETECTED", "PERSON_DETECTED", "PERSON_DETECTED", "PERSON_DETECTED"] ∧
    fiveFrames.map (fun f => decide (0 < personCount workingEnv f))
      = [true, true, true, false, true] ∧
    risingEdges false (fiveFrames.map (fun f => decide (0 < personCount workingEnv f))) = 2 ∧
    (processFrames workingEnv fiveFrames emptyWorld).map (fun w => w.busWrites.length)
      ≠ some (risingEdges false
          (fiveFrames.map (fun f => decide (0 < personCount workingEnv f)))) := by
  refine ⟨by decide!, by decide!, by decide!, by decide!⟩

/-- C4, amended: a sequence of frames whose tensors have at least five columns is
processed to the end, and the messages sent are one `PERSON_DETECTED` per person-class
survivor of each frame (bus writes on Linux, simulation lines otherwise); their number is
the sum over the frames of the number of person-class survivors, with no dependence on the
previous frame. -/
theorem message_count_is_person_box_count (env : Env) (frames : List (Frame × List Mat))
    (w : World) (hwf : ∀ f ∈ frames, ∀ m ∈ f.2, m.rows = 0 ∨ 5 ≤ m.cols) :
    ∃ v, processFrames env frames w = some v ∧
      (env.isLinux = true →
        v.busWrites
          = w.busWrites
              ++ List.replicate ((frames.map (personCount env)).sum) "PERSON_DETECTED") ∧
      (env.isLinux = false →
        v.cout
          = w.cout
              ++ List.replicate ((frames.map (personCount env)).sum)
                  "[I2C Simulation] Sending message: PERSON_DETECTED") := by
  obtain ⟨v, hv⟩ := processFrames_total env frames hwf w
  exact ⟨v, hv, fun hl => processFrames_busWrites env hl frames w v hv,
    fun hl => processFrames_cout env hl frames w v hv⟩

/-- Witness of the amended C4: the five frames send four messages. -/
theorem message_count_is_person_box_count_witness :
    processFrames workingEnv fiveFrames emptyWorld = some fiveFramesWorld ∧
      (fiveFrames.map (personCount workingEnv)).sum = 4 ∧
      ∃ v, processFrames workingEnv fiveFrames emptyWorld = some v ∧
        v.busWrites
          = emptyWorld.busWrites
              ++ List.replicate ((fiveFrames.map (personCount workingEnv)).sum)
                  "PERSON_DETECTED" := by
  refine ⟨by decide!, by decide!, ?_⟩
  obtain ⟨v, h1, h2, _⟩ :=
    message_count_is_person_box_count workingEnv fiveFrames emptyWorld (by decide)
  exact ⟨v, h1, h2 rfl⟩

/-- C10: on tensors that have at least five columns one call of `postprocess` returns,
and the messages it sends are exactly one `PERSON_DETECTED` per survivor of class `0` of
that frame (written to the bus on Linux, printed as a simulation line otherwise),
independently of the world left by earlier frames; survivors of other classes send
nothing, and a frame without a person-class survivor, in particular one without
candidates, leaves the world unchanged. -/
theorem postprocess_sends_per_person_box (env : Env) (frame : Frame) (outs : List Mat)
    (w : World) (hwf : ∀ m ∈ outs, m.rows = 0 ∨ 5 ≤ m.cols) :
    ∃ v, postprocess env frame outs w = some v ∧
      (env.isLinux = true →
        v.busWrites
            = w.busWrites
                ++ List.replicate (personCount env (frame, outs)) "PERSON_DETECTED" ∧
          v.cout = w.cout) ∧
      (env.isLinux = false →
        v.cout
            = w.cout
                ++ List.replicate (personCount env (frame, outs))
                    "[I2C Simulation] Sending message: PERSON_DETECTED" ∧
          v.busWrites = w.busWrites) ∧
      (personCount env (frame, outs) = 0 → v = w) ∧
      (decode env.fmul frame env.confThreshold outs = some [] → v = w) := by
  obtain ⟨v, hp0⟩ := postprocess_total env frame outs w hwf
  have hp := hp0
  rw [postprocess_eq] at hp
  refine ⟨v, hp0, ?_, fun hl => postprocess_cout env hl frame outs w v hp0,
    postprocess_no_person env frame outs w v hp0, ?_⟩
  · intro hl
    refine ⟨postprocess_busWrites env hl frame outs w v hp0, ?_⟩
    cases hd : decode env.fmul frame env.confThreshold outs with
    | none => rw [hd] at hp; simp at hp
    | some cands =>
      rw [hd] at hp
      simp only [Option.map_some', Option.some.injEq] at hp
      rw [← hp]
      exact (foldl_drawStep_linux env hl _ w).2
  · intro hnil
    apply postprocess_no_person env frame outs w v hp0
    unfold personCount frameSurvivors
    simp only [hnil, survivors_nil]
    rfl

/-- Witness of C10: one frame with one person box sends one message, on the bus in the
Linux build and as a simulation line otherwise; a frame without a person sends none. -/
theorem postprocess_sends_per_person_box_witness :
    postprocess workingEnv vga [personTensor] emptyWorld
        = some ⟨["PERSON_DETECTED"], [], [], [(240, 180, 400, 300)]⟩ ∧
      postprocess simulationEnv vga [personTensor] emptyWorld
        = some ⟨[], [], ["[I2C Simulation] Sending message: PERSON_DETECTED"],
            [(240, 180, 400, 300)]⟩ ∧
      postprocess workingEnv vga [backgroundTensor] emptyWorld = some emptyWorld ∧
      personCount workingEnv (vga, [personTensor]) = 1 ∧
      ∃ v, postprocess workingEnv vga [personTensor] emptyWorld = some v ∧
        v.busWrites
          = emptyWorld.busWrites
              ++ List.replicate (personCount workingEnv (vga, [personTensor]))
                  "PERSON_DETECTED" := by
  refine ⟨by decide!, by decide!, by decide!, by decide!, ?_⟩
  obtain ⟨v, h1, h2, _⟩ :=
    postprocess_sends_per_person_box workingEnv vga [personTensor] emptyWorld (by decide)
  exact ⟨v, h1, (h2 rfl).1⟩

/-- C9: on Linux a `write` whose result differs from the payload length makes
`sendI2CMessage` add one line to `cerr` and return with exactly one write recorded;
`drawPred`, `postprocess` and the frame loop then proceed as with any other result of
`write`: apart from `cerr`, the world after any sequence of frames is the same for every
result of `write`, and on tensors that have at least five columns the sequence is
processed to the end with as many writes as there are person-class survivors, so a failed
write is not repeated. -/
theorem write_failure_is_swallowed (env other : Env) (message : String) (w : World)
    (frames : List (Frame × List Mat)) (hlinux : env.isLinux = true)
    (hfail : env.writeResult w.busWrites.length message % 2 ^ 64
      ≠ (message.utf8ByteSize : Int))
    (hsame : env.sameButWrites other) :
    sendI2CMessage env message w
        = ⟨w.busWrites ++ [message], w.cerr ++ ["Failed to write to the I2C bus"], w.cout,
            w.rectangles⟩ ∧
      (∀ (v : World) (d : Detection),
        (drawStep env v d).withoutCerr = (drawStep other v d).withoutCerr) ∧
      (∀ (frame : Frame) (outs : List Mat) (v : World),
        (postprocess env frame outs v).map World.withoutCerr
          = (postprocess other frame outs v).map World.withoutCerr) ∧
      (processFrames env frames w).map World.withoutCerr
        = (processFrames other frames w).map World.withoutCerr ∧
      ((∀ f ∈ frames, ∀ m ∈ f.2, m.rows = 0 ∨ 5 ≤ m.cols) →
        ∃ v, processFrames env frames w = some v ∧
          v.busWrites.length = w.busWrites.length + (frames.map (personCount env)).sum) := by
  refine ⟨?_, ?_, ?_, ?_, ?_⟩
  · unfold sendI2CMessage
    simp only [hlinux, if_true]
    rw [if_pos hfail]
  · intro v d
    exact drawStep_withoutCerr env other hsame v v rfl d
  · intro frame outs v
    exact postprocess_withoutCerr env other hsame frame outs v v rfl
  · exact processFrames_withoutCerr env other hsame frames w w rfl
  · intro hwf
    obtain ⟨v, hv⟩ := processFrames_total env frames hwf w
    refine ⟨v, hv, ?_⟩
    rw [processFrames_busWrites env hlinux frames w v hv]
    simp

/-- Witness of C9: on the five frames a bus on which every write fails and a bus on which
every write succeeds leave the same writes and drawings; the failure adds one `cerr` line
to a single call. -/
theorem write_failure_is_swallowed_witness :
    failingEnv.writeResult emptyWorld.busWrites.length "PERSON_DETECTED" % 2 ^ 64
        ≠ (("PERSON_DETECTED" : String).utf8ByteSize : Int) ∧
      sendI2CMessage failingEnv "PERSON_DETECTED" emptyWorld
        = ⟨emptyWorld.busWrites ++ ["PERSON_DETECTED"],
            emptyWorld.cerr ++ ["Failed to write to the I2C bus"], emptyWorld.cout,
            emptyWorld.rectangles⟩ ∧
      (processFrames failingEnv fiveFrames emptyWorld).map World.withoutCerr
        = (processFrames workingEnv fiveFrames emptyWorld).map World.withoutCerr :=
  ⟨by decide!,
    (write_failure_is_swallowed failingEnv workingEnv "PERSON_DETECTED" emptyWorld fiveFrames
      rfl (by decide!) ⟨rfl, rfl, rfl, rfl⟩).1,
    (write_failure_is_swallowed failingEnv workingEnv "PERSON_DETECTED" emptyWorld fiveFrames
      rfl (by decide!) ⟨rfl, rfl, rfl, rfl⟩).2.2.2.1⟩

end PeopleDetection
